import Mathlib

/-!
Verification development for `migrate_test_constants.py`, a one-shot batch tool
that rewrites hardcoded LLM model/provider string literals in test files to
references to shared constants, ensuring an import of those constants exists.

File contents are modelled as `List Char` (Python `str`), Python's
`str.replace` as `replaceAll` (non-overlapping leftmost replacement), the
single regular-expression substitution as `reSubImport`, and the per-file
I/O (read, write, exception handling) as explicit data (`FileCase`,
`MigrateOutcome`).
-/

namespace Praxos

/-- Single-quote character (ASCII 39), the delimiter of every mapped literal
pattern of the tool's tables. -/
def sq : Char := Char.ofNat 39

/-- Opening curly brace character (ASCII 123). -/
def lbrace : Char := Char.ofNat 123

/-- Closing curly brace character (ASCII 125). -/
def rbrace : Char := Char.ofNat 125

/-- MODEL_MAPPINGS of the source: ordered association (Python dict in
insertion order) of quoted model-name literals to replacement symbols. -/
def MODEL_MAPPINGS : List (List Char × List Char) :=
  [("'gemini-2.5-pro'".toList, "LlmModels.Gemini25Pro".toList),
   ("'gemini-2.5-flash'".toList, "LlmModels.Gemini25Flash".toList),
   ("'gemini-2.0-flash'".toList, "LlmModels.Gemini20Flash".toList),
   ("'o4-mini-deep-research'".toList, "LlmModels.O4MiniDeepResearch".toList),
   ("'o4-mini'".toList, "LlmModels.O4Mini".toList),
   ("'o1-deep-research'".toList, "LlmModels.O1DeepResearch".toList),
   ("'gpt-4o'".toList, "LlmModels.Gpt4o".toList),
   ("'gpt-4o-mini'".toList, "LlmModels.Gpt4oMini".toList),
   ("'claude-sonnet-4-5-20250929'".toList, "LlmModels.ClaudeSonnet4520250929".toList),
   ("'claude-sonnet-4-20250514'".toList, "LlmModels.ClaudeSonnet420250514".toList),
   ("'claude-opus-4-5-20251101'".toList, "LlmModels.ClaudeOpus4520251101".toList),
   ("'sonar-pro'".toList, "LlmModels.SonarPro".toList),
   ("'imagen-3'".toList, "LlmModels.Imagen3".toList),
   ("'dall-e-3'".toList, "LlmModels.DallE3".toList)]

/-- PROVIDER_MAPPINGS of the source. -/
def PROVIDER_MAPPINGS : List (List Char × List Char) :=
  [("'google'".toList, "LlmProviders.Google".toList),
   ("'anthropic'".toList, "LlmProviders.Anthropic".toList),
   ("'openai'".toList, "LlmProviders.OpenAI".toList),
   ("'perplexity'".toList, "LlmProviders.Perplexity".toList)]

/-- Combined mapping list in the order the tool applies it: all model pairs,
then all provider pairs. -/
def ALL_MAPPINGS : List (List Char × List Char) := MODEL_MAPPINGS ++ PROVIDER_MAPPINGS

/-- The patterns scanned by `needs_migration`: the keys of both tables, model
keys first (the source concatenates the two key lists). -/
def ALL_PATTERNS : List (List Char) := ALL_MAPPINGS.map Prod.fst

/-- Python substring containment (the `in` operator on `str`):
true iff `needle` occurs contiguously in `hay`. -/
def containsSub (needle : List Char) : List Char → Bool
  | [] => needle.isEmpty
  | c :: cs => needle.isPrefixOf (c :: cs) || containsSub needle cs

/-- Model of `needs_migration`: the content needs migration iff it contains
one of the literal patterns of either mapping table (checked in listed order
with early exit, which `List.any` mirrors). -/
def needs_migration (content : List Char) : Bool :=
  ALL_PATTERNS.any fun p => containsSub p content

/-- Core of the model of Python `str.replace`. The text is scanned left to
right; the `Nat` argument counts how many characters of a just-replaced
occurrence remain to be skipped. At count 0, if the (nonempty) pattern `p`
is a prefix of the remaining text, the replacement `r` is emitted and the
`p.length` matched characters are skipped, yielding non-overlapping
leftmost-first replacement, exactly Python's `str.replace` semantics for a
nonempty pattern (the guard makes the empty pattern a no-op; the tool's
patterns are all nonempty). -/
def replaceTail (p r : List Char) : List Char → Nat → List Char
  | [], _ => []
  | _ :: cs, k + 1 => replaceTail p r cs k
  | c :: cs, 0 =>
    if p ≠ [] ∧ p.isPrefixOf (c :: cs) then r ++ replaceTail p r cs (p.length - 1)
    else c :: replaceTail p r cs 0

/-- Python `content.replace(p, r)` for the nonempty literal patterns used by
the tool. -/
def replaceAll (p r s : List Char) : List Char := replaceTail p r s 0

/-- Companion of `replaceTail` that collects the pieces of text between the
replaced occurrences instead of substituting; used to reason about
`replaceAll` through `List.intercalate`. -/
def splitTail (p : List Char) : List Char → Nat → List (List Char)
  | [], _ => [[]]
  | _ :: cs, k + 1 => splitTail p cs k
  | c :: cs, 0 =>
    if p ≠ [] ∧ p.isPrefixOf (c :: cs) then [] :: splitTail p cs (p.length - 1)
    else
      match splitTail p cs 0 with
      | [] => [[c]]
      | hd :: tl => (c :: hd) :: tl

/-- Split of `s` at the non-overlapping leftmost occurrences of `p`. -/
def splitAll (p s : List Char) : List (List Char) := splitTail p s 0

/-- Ordered application of a mapping list: each pair replaces every
occurrence of its literal pattern, later pairs operating on the text already
rewritten by earlier ones (the two replacement loops of `migrate_file`). -/
def apply_mappings (ms : List (List Char × List Char)) (t : List Char) : List Char :=
  ms.foldl (fun acc pr => replaceAll pr.1 pr.2 acc) t

/-- The symbol name "LlmModels" checked by `add_import_if_needed`. -/
def llmModelsName : List Char := "LlmModels".toList

/-- The symbol name "LlmProviders" checked by `add_import_if_needed`. -/
def llmProvidersName : List Char := "LlmProviders".toList

/-- The needle of the `"from '@intexuraos/llm-contract'" in content` check. -/
def moduleFromNeedle : List Char := "from '@intexuraos/llm-contract'".toList

/-- The import statement the tool inserts or rewrites to (the Python
`import_statement` variable, also the constant value of the `re.sub`
replacement lambda). -/
def import_statement : List Char := "import \x7b LlmModels, LlmProviders \x7d from '@intexuraos/llm-contract';".toList

/-- Whitespace class of the regex metacharacter backslash-s, in its ASCII
part (space, tab, newline, carriage return, vertical tab, form feed); the
exotic Unicode members are irrelevant to the tool's inputs and omitted. -/
def pySpace (c : Char) : Bool :=
  c == ' ' || c == '\t' || c == '\n' || c == '\r' || c == '\x0b' || c == '\x0c'

/-- Greedy star over the whitespace class: since each star in the pattern is
followed by a non-whitespace token, the regex engine's match of it is exactly
the maximal whitespace run. -/
def skipSpaces (s : List Char) : List Char := s.dropWhile pySpace

/-- Literal part of a regex: consumes `lit` from the front of `s`. -/
def matchLit (lit s : List Char) : Option (List Char) :=
  if lit.isPrefixOf s then some (s.drop lit.length) else none

/-- Consumes a single expected character from the front of `s`. -/
def expectChar (ch : Char) (s : List Char) : Option (List Char) :=
  match s with
  | c :: cs => if c = ch then some cs else none
  | [] => none

/-- The bracketed symbol list of the regex: one or more characters other than
a closing brace. The greedy plus cannot cross a closing brace, so its match
is exactly the maximal brace-free run, which must be nonempty; returns the
remainder starting at the closing brace. -/
def matchInner (s : List Char) : Option (List Char) :=
  let inner := s.takeWhile fun c => c != rbrace
  if inner = [] then none else some (s.drop inner.length)

/-- Attempt to match the clause-rewriting regular expression of
`add_import_if_needed` at the head of `s1`, after its leading "import"
literal has been consumed; returns the remainder of the text after the
match. -/
def tryMatchAfter (s1 : List Char) : Option (List Char) :=
  (expectChar lbrace (skipSpaces s1)).bind fun s2 =>
  (matchInner s2).bind fun s3 =>
  (expectChar rbrace s3).bind fun s4 =>
  (matchLit "from".toList (skipSpaces s4)).bind fun s5 =>
  matchLit "'@intexuraos/llm-contract';".toList (skipSpaces s5)

/-- Attempt to match the whole clause-rewriting regular expression at the
head of `s`: the literal "import", optional whitespace, a braced nonempty
symbol list, optional whitespace, "from", optional whitespace, and the quoted
module path with its terminating semicolon. Every star of the pattern is
followed by a non-matching mandatory token, so this deterministic parse
agrees with the backtracking regex engine. -/
def tryMatchImport (s : List Char) : Option (List Char) :=
  (matchLit "import".toList s).bind tryMatchAfter

/-- Core of the model of `re.sub`: scans the text left to right, replacing
each (leftmost, non-overlapping) match of the clause regex with the constant
`import_statement`; the `Nat` argument counts remaining characters of a
just-replaced match still to be skipped. -/
def reSubTail : List Char → Nat → List Char
  | [], _ => []
  | _ :: cs, k + 1 => reSubTail cs k
  | c :: cs, 0 =>
    match tryMatchImport (c :: cs) with
    | some rest => import_statement ++ reSubTail cs (cs.length - rest.length)
    | none => c :: reSubTail cs 0

/-- The `re.sub(clause_regex, import_statement, content)` call of the
source. -/
def reSubImport (s : List Char) : List Char := reSubTail s 0

/-- Whether the clause regex matches anywhere in the text (the regex engine's
search); used to state when `re.sub` rewrites nothing. -/
def hasImportMatch : List Char → Bool
  | [] => false
  | c :: cs => (tryMatchImport (c :: cs)).isSome || hasImportMatch cs

/-- Python `content.split('\n')`: split at every newline, keeping empty
pieces, yielding one more piece than there are newlines. -/
def splitNL : List Char → List (List Char)
  | [] => [[]]
  | c :: cs =>
    if c = '\n' then [] :: splitNL cs
    else
      match splitNL cs with
      | [] => [[c]]
      | hd :: tl => (c :: hd) :: tl

/-- Python `'\n'.join(lines)`. -/
def joinNL (ls : List (List Char)) : List Char := List.intercalate ['\n'] ls

/-- The per-line test of the insertion loop: the line starts with the import
keyword followed by a space and contains "from" somewhere. -/
def is_import_line (l : List Char) : Bool := "import ".toList.isPrefixOf l && containsSub "from".toList l

/-- The insertion loop of `add_import_if_needed`: walk the lines, and after
the first line passing `is_import_line` insert the new import statement,
returning the new line list; `none` when no line qualifies (the loop falls
through and the original content is returned unchanged). -/
def insert_after_first_import (ls : List (List Char)) : Option (List (List Char)) :=
  match ls with
  | [] => none
  | l :: rest =>
    if is_import_line l then some (l :: import_statement :: rest)
    else (insert_after_first_import rest).map (l :: ·)

/-- Model of `add_import_if_needed`: leave the text alone when both symbol
names occur anywhere in it; otherwise rewrite the import clause via the regex
when the module-path needle occurs; otherwise insert the import statement
after the first import-looking line, or return the text unchanged when there
is none. -/
def add_import_if_needed (content : List Char) : List Char :=
  if containsSub llmModelsName content && containsSub llmProvidersName content then content
  else if containsSub moduleFromNeedle content then reSubImport content
  else
    match insert_after_first_import (splitNL content) with
    | some ls => joinNL ls
    | none => content

/-- The pure content transformation of `migrate_file`: when the content needs
migration, ensure the import and apply all model then all provider
substitutions; otherwise the content is left as it is (no write occurs). -/
def migrate_content (content : List Char) : List Char :=
  if needs_migration content then apply_mappings ALL_MAPPINGS (add_import_if_needed content)
  else content

/-- Modelled from the spec: the I/O fate of one discovered file. Python
exceptions during read are modelled by `readResult` being an error message;
`writeOk` is false when the write-back would raise, with `writeErr` the
message of that exception. The transformation itself is pure and cannot
raise. -/
structure FileCase where
  readResult : Except (List Char) (List Char)
  writeOk : Bool
  writeErr : List Char

/-- One line of the tool's console output. `migrating` is the standard-output
progress line "Migrating: path"; `errorLine` is the standard-error line
"Error migrating path: detail". -/
inductive OutLine where
  | migrating (path : List Char)
  | errorLine (path detail : List Char)
deriving DecidableEq

/-- Observable outcome of `migrate_file` on one file: its boolean return
value (counted by the driver), the lines it printed in order, and the content
written back, when a write happened. -/
structure MigrateOutcome where
  migrated : Bool
  output : List OutLine
  written : Option (List Char)
deriving DecidableEq

/-- Model of `migrate_file`: a failed read is caught and reported, returning
false; content not needing migration is skipped silently with no write; a
migrated file prints its progress line, then writes — a failed write is
caught and reported after that progress line, returning false. -/
def migrate_file (path : List Char) (fc : FileCase) : MigrateOutcome :=
  match fc.readResult with
  | .error e => ⟨false, [.errorLine path e], none⟩
  | .ok content =>
    if needs_migration content then
      let newContent := apply_mappings ALL_MAPPINGS (add_import_if_needed content)
      if fc.writeOk then ⟨true, [.migrating path], some newContent⟩
      else ⟨false, [.migrating path, .errorLine path fc.writeErr], none⟩
    else ⟨false, [], none⟩

/-- Model of the driver loop of `main`: fold over the discovered files in
order, accumulating the migrated count and the printed lines. -/
def run_main (files : List (List Char × FileCase)) : Nat × List OutLine :=
  files.foldl
    (fun acc pf =>
      let r := migrate_file pf.1 pf.2
      (acc.1 + (if r.migrated then 1 else 0), acc.2 ++ r.output))
    (0, [])

/-- Example input with a braced import from the target module and a mapped
literal (the clause-rewriting scenario of the spec's test). -/
def exampleRewrite : List Char := "import \x7b Foo \x7d from '@intexuraos/llm-contract';\nconst m = 'gemini-2.5-pro';".toList

/-- Example input whose only import line is unrelated (the insertion
scenario of the spec's test). -/
def exampleInsert : List Char := "import X from 'other';\nconst m = 'gemini-2.5-pro';".toList

/-- First line of `exampleInsert`. -/
def exampleInsertLine1 : List Char := "import X from 'other';".toList

/-- Second line of `exampleInsert`. -/
def exampleInsertLine2 : List Char := "const m = 'gemini-2.5-pro';".toList

/-- Example input containing the module-path needle through a default import,
which the braced-import regex does not match. -/
def exampleDefault : List Char := "import DefaultThing from '@intexuraos/llm-contract';\nconst m = 'gpt-4o';".toList

/-- Shape shared by every literal pattern of the tables: it starts and ends
with a single quote and contains no uppercase letter L. -/
def PatGood (p : List Char) : Prop :=
  p.head? = some sq ∧ p.getLast? = some sq ∧ 'L' ∉ p

/-- Shape shared by every replacement symbol of the tables: it contains no
single quote and contains the uppercase letter L. -/
def RepGood (r : List Char) : Prop := sq ∉ r ∧ 'L' ∈ r

/-- Separation property of a pattern `p` with respect to an inserted string
`r`: an occurrence of `p` in a text of the form `x ++ r ++ y` never straddles
the inserted block. -/
def NoSpan (p r : List Char) : Prop :=
  ∀ x y : List Char, p <:+: x ++ r ++ y → p <:+: x ∨ p <:+: y

theorem containsSub_iff {p : List Char} :
    ∀ {s : List Char}, containsSub p s = true ↔ p <:+: s := by
  intro s
  induction s with
  | nil => simp [containsSub, List.isEmpty_iff]
  | cons c cs ih => simp [containsSub, List.infix_cons_iff, ih]

theorem mem_of_head_eq {p : List Char} {a : Char} (h : p.head? = some a) : a ∈ p := by
  obtain ⟨ys, rfl⟩ := List.head?_eq_some_iff.mp h
  exact List.mem_cons_self a ys

theorem mem_of_getLast_eq {p : List Char} {a : Char} (h : p.getLast? = some a) : a ∈ p := by
  obtain ⟨ys, rfl⟩ := List.getLast?_eq_some_iff.mp h
  simp

theorem ne_nil_of_head_eq {p : List Char} {a : Char} (h : p.head? = some a) : p ≠ [] := by
  obtain ⟨ys, rfl⟩ := List.head?_eq_some_iff.mp h
  simp

theorem head_append_left {s t : List Char} {a : Char} (h : s.head? = some a) :
    (s ++ t).head? = some a := by
  simp [List.head?_append, h]

theorem getLast_append_right {s t : List Char} {a : Char} (h : t.getLast? = some a) :
    (s ++ t).getLast? = some a := by
  simp [List.getLast?_append, h]

/-- Decomposition of an occurrence of `p` inside a concatenation: the
occurrence lies in the left part, lies in the right part, or straddles the
boundary, splitting `p` into a nonempty suffix of the left part followed by a
nonempty prefix of the right part. -/
theorem infix_append_cases {p x y : List Char} (h : p <:+: x ++ y) :
    p <:+: x ∨ p <:+: y ∨
      ∃ s t, p = s ++ t ∧ s ≠ [] ∧ t ≠ [] ∧ s <:+ x ∧ t <+: y := by
  obtain ⟨a, b, hab⟩ := h
  have hxpre : x <+: a ++ p ++ b := hab ▸ List.prefix_append x y
  have hapre : a <+: a ++ p ++ b := by
    rw [List.append_assoc]
    exact List.prefix_append a (p ++ b)
  by_cases h1 : a.length + p.length ≤ x.length
  · left
    have hap : a ++ p <+: x := by
      refine List.prefix_of_prefix_length_le (List.prefix_append (a ++ p) b) hxpre ?_
      simpa using h1
    obtain ⟨t, ht⟩ := hap
    exact ⟨a, t, by rw [← ht, List.append_assoc]⟩
  · by_cases h2 : x.length ≤ a.length
    · right; left
      have hxa : x <+: a := List.prefix_of_prefix_length_le hxpre hapre h2
      obtain ⟨w, hw⟩ := hxa
      have hy : y = w ++ p ++ b := by
        have hxy : x ++ y = x ++ (w ++ p ++ b) := by
          rw [← hab, ← hw]
          simp
        exact List.append_cancel_left hxy
      exact ⟨w, b, hy.symm⟩
    · right; right
      have hax : a <+: x := List.prefix_of_prefix_length_le hapre hxpre (by omega)
      obtain ⟨s, hs⟩ := hax
      have hsp : s <+: p := by
        have hxap : x <+: a ++ p := by
          refine List.prefix_of_prefix_length_le hxpre (List.prefix_append (a ++ p) b) ?_
          simp
          omega
        rw [← hs] at hxap
        exact (List.prefix_append_right_inj a).mp hxap
      obtain ⟨t, ht⟩ := hsp
      refine ⟨s, t, ht.symm, ?_, ?_, ⟨a, hs⟩, ?_⟩
      · intro hn
        have hls := congrArg List.length hs
        rw [hn] at hls
        simp at hls
        omega
      · intro hn
        rw [hn, List.append_nil] at ht
        have hls := congrArg List.length hs
        have hlt := congrArg List.length ht
        simp at hls hlt
        omega
      · have hy : y = t ++ b := by
          have hxy : x ++ y = x ++ (t ++ b) := by
            rw [← hab, ← hs, ← ht]
            simp
          exact List.append_cancel_left hxy
        exact ⟨b, hy.symm⟩

theorem infix_cons_split {p : List Char} {c : Char} {cs : List Char}
    (h : p <:+: c :: cs) : p <+: c :: cs ∨ p <:+: cs := by
  rcases List.infix_cons_iff.mp h with h' | h'
  · exact Or.inl h'
  · exact Or.inr h'

/-- Core separation argument: a pattern that starts and ends with a quote and
avoids the letter L can never straddle an inserted block that has no quote
but contains an L. -/
theorem noSpan_of_good {p r : List Char} (hp : PatGood p) (hr : RepGood r) :
    NoSpan p r := by
  obtain ⟨hph, hpl, hpL⟩ := hp
  obtain ⟨hrq, hrL⟩ := hr
  intro x y h
  rcases infix_append_cases (x := x) (y := r ++ y) (by simpa using h) with h1 | h1 | h1
  · exact Or.inl h1
  · rcases infix_append_cases h1 with h2 | h2 | h2
    · exact absurd (h2.subset (mem_of_head_eq hph)) hrq
    · exact Or.inr h2
    · obtain ⟨s, t, hpst, hs, ht, hsr, hty⟩ := h2
      obtain ⟨a, ha⟩ : ∃ a, s.head? = some a := by
        cases hh : s.head? with
        | none => exact absurd (List.head?_eq_none_iff.mp hh) hs
        | some a => exact ⟨a, rfl⟩
      have : p.head? = some a := by rw [hpst]; exact head_append_left ha
      rw [hph] at this
      obtain rfl : sq = a := by injection this
      exact absurd (hsr.subset (mem_of_head_eq ha)) hrq
  · obtain ⟨s, t, hpst, hs, ht, hsx, hty⟩ := h1
    obtain ⟨a, ha⟩ : ∃ a, t.getLast? = some a := by
      cases hh : t.getLast? with
      | none => exact absurd (List.getLast?_eq_none_iff.mp hh) ht
      | some a => exact ⟨a, rfl⟩
    have hpa : p.getLast? = some a := by rw [hpst]; exact getLast_append_right ha
    rw [hpl] at hpa
    obtain rfl : sq = a := by injection hpa
    by_cases hlen : t.length ≤ r.length
    · have htr : t <+: r :=
        List.prefix_of_prefix_length_le hty (List.prefix_append r y) hlen
      exact absurd (htr.subset (mem_of_getLast_eq ha)) hrq
    · have hrt : r <+: t :=
        List.prefix_of_prefix_length_le (List.prefix_append r y) hty (by omega)
      have : 'L' ∈ p := by
        rw [hpst]
        exact List.mem_append_right s (hrt.subset hrL)
      exact absurd this hpL

theorem list_strong_ind {P : List Char → Prop}
    (h : ∀ s : List Char, (∀ u : List Char, u.length < s.length → P u) → P s) :
    ∀ s : List Char, P s := by
  have H : ∀ n : Nat, ∀ s : List Char, s.length < n → P s := by
    intro n
    induction n with
    | zero => intro s hs; omega
    | succ n ih =>
      intro s hs
      exact h s fun u hu => ih u (by omega)
  intro s
  exact H (s.length + 1) s (by omega)

theorem replaceTail_skip (p r : List Char) :
    ∀ (s : List Char) (k : Nat), replaceTail p r s k = replaceTail p r (s.drop k) 0 := by
  intro s
  induction s with
  | nil => intro k; simp [replaceTail]
  | cons c cs ih =>
    intro k
    cases k with
    | zero => rfl
    | succ k => simpa [replaceTail] using ih k

theorem splitTail_skip (p : List Char) :
    ∀ (s : List Char) (k : Nat), splitTail p s k = splitTail p (s.drop k) 0 := by
  intro s
  induction s with
  | nil => intro k; simp [splitTail]
  | cons c cs ih =>
    intro k
    cases k with
    | zero => rfl
    | succ k => simpa [splitTail] using ih k

theorem drop_cons_of_pos {p : List Char} (hne : p ≠ []) (c : Char) (cs : List Char) :
    List.drop p.length (c :: cs) = List.drop (p.length - 1) cs := by
  have hp1 : 1 ≤ p.length := List.length_pos.mpr hne
  cases hp : p.length with
  | zero => omega
  | succ n => simp [List.drop_succ_cons]

theorem replaceAll_cons_pos {p : List Char} (r : List Char) {c : Char} {cs : List Char}
    (hne : p ≠ []) (hpre : p.isPrefixOf (c :: cs) = true) :
    replaceAll p r (c :: cs) = r ++ replaceAll p r (List.drop p.length (c :: cs)) := by
  have h1 : replaceTail p r (c :: cs) 0 = r ++ replaceTail p r cs (p.length - 1) := by
    simp only [replaceTail]
    rw [if_pos ⟨hne, hpre⟩]
  rw [replaceAll, h1, replaceTail_skip p r cs (p.length - 1), drop_cons_of_pos hne]
  rfl

theorem replaceAll_cons_neg {p : List Char} (r : List Char) {c : Char} {cs : List Char}
    (h : ¬(p ≠ [] ∧ p.isPrefixOf (c :: cs) = true)) :
    replaceAll p r (c :: cs) = c :: replaceAll p r cs := by
  have h1 : replaceTail p r (c :: cs) 0 = c :: replaceTail p r cs 0 := by
    simp only [replaceTail]
    rw [if_neg h]
  exact h1

theorem splitAll_cons_pos {p : List Char} {c : Char} {cs : List Char}
    (hne : p ≠ []) (hpre : p.isPrefixOf (c :: cs) = true) :
    splitAll p (c :: cs) = [] :: splitAll p (List.drop p.length (c :: cs)) := by
  have h1 : splitTail p (c :: cs) 0 = [] :: splitTail p cs (p.length - 1) := by
    simp only [splitTail]
    rw [if_pos ⟨hne, hpre⟩]
  rw [splitAll, h1, splitTail_skip p cs (p.length - 1), drop_cons_of_pos hne]
  rfl

theorem splitAll_ne_nil (p : List Char) : ∀ s : List Char, splitAll p s ≠ [] := by
  intro s
  cases s with
  | nil => simp [splitAll, splitTail]
  | cons c cs =>
    show splitTail p (c :: cs) 0 ≠ []
    simp only [splitTail]
    split
    · simp
    · cases h : splitTail p cs 0 <;> simp

theorem splitAll_cons_neg {p : List Char} {c : Char} {cs : List Char} {hd : List Char}
    {tl : List (List Char)} (h : ¬(p ≠ [] ∧ p.isPrefixOf (c :: cs) = true))
    (hsp : splitAll p cs = hd :: tl) :
    splitAll p (c :: cs) = (c :: hd) :: tl := by
  show splitTail p (c :: cs) 0 = (c :: hd) :: tl
  simp only [splitTail]
  rw [if_neg h]
  rw [splitAll] at hsp
  rw [hsp]

theorem splitAll_head_pre (p : List Char) :
    ∀ (s hd : List Char) (tl : List (List Char)), splitAll p s = hd :: tl → hd <+: s := by
  intro s
  induction s with
  | nil =>
    intro hd tl h
    simp [splitAll, splitTail] at h
    simp [h.1]
  | cons c cs ih =>
    intro hd tl h
    by_cases hc : p ≠ [] ∧ p.isPrefixOf (c :: cs) = true
    · rw [splitAll_cons_pos hc.1 hc.2] at h
      obtain rfl : hd = [] := by injection h with h1 h2; exact h1.symm
      exact List.nil_prefix
    · obtain ⟨hd', tl', hsp⟩ : ∃ hd' tl', splitAll p cs = hd' :: tl' := by
        cases hx : splitAll p cs with
        | nil => exact absurd hx (splitAll_ne_nil p cs)
        | cons a b => exact ⟨a, b, rfl⟩
      rw [splitAll_cons_neg hc hsp] at h
      injection h with h1 h2
      subst h1
      obtain ⟨w, hw⟩ := ih hd' tl' hsp
      exact ⟨w, by rw [List.cons_append, hw]⟩

theorem splitAll_parts_within (p : List Char) :
    ∀ s : List Char, ∀ part ∈ splitAll p s, part <:+: s := by
  apply list_strong_ind
  intro s ih
  cases s with
  | nil =>
    intro part hp
    simp [splitAll, splitTail] at hp
    simp [hp]
  | cons c cs =>
    intro part hp
    by_cases hc : p ≠ [] ∧ p.isPrefixOf (c :: cs) = true
    · rw [splitAll_cons_pos hc.1 hc.2] at hp
      rcases List.mem_cons.mp hp with rfl | hp'
      · simp
      · have hlt : (List.drop p.length (c :: cs)).length < (c :: cs).length := by
          have := List.length_pos.mpr hc.1
          simp
          omega
        have h1 := ih _ hlt part hp'
        exact h1.trans (List.drop_suffix _ _).isInfix
    · obtain ⟨hd', tl', hsp⟩ : ∃ hd' tl', splitAll p cs = hd' :: tl' := by
        cases hx : splitAll p cs with
        | nil => exact absurd hx (splitAll_ne_nil p cs)
        | cons a b => exact ⟨a, b, rfl⟩
      rw [splitAll_cons_neg hc hsp] at hp
      rcases List.mem_cons.mp hp with rfl | hp'
      · obtain ⟨w, hw⟩ := splitAll_head_pre p cs hd' tl' hsp
        have hpre : c :: hd' <+: c :: cs := ⟨w, by rw [List.cons_append, hw]⟩
        exact hpre.isInfix
      · have h1 := ih cs (by simp) part (hsp ▸ List.mem_cons_of_mem hd' hp')
        exact List.infix_cons h1

theorem splitAll_parts_not_contain {p : List Char} (hne : p ≠ []) :
    ∀ s : List Char, ∀ part ∈ splitAll p s, ¬ p <:+: part := by
  apply list_strong_ind
  intro s ih
  cases s with
  | nil =>
    intro part hp
    simp [splitAll, splitTail] at hp
    rw [hp]
    simp [hne]
  | cons c cs =>
    intro part hp
    by_cases hc : p ≠ [] ∧ p.isPrefixOf (c :: cs) = true
    · rw [splitAll_cons_pos hc.1 hc.2] at hp
      rcases List.mem_cons.mp hp with rfl | hp'
      · simp [hne]
      · have hlt : (List.drop p.length (c :: cs)).length < (c :: cs).length := by
          have := List.length_pos.mpr hc.1
          simp
          omega
        exact ih _ hlt part hp'
    · obtain ⟨hd', tl', hsp⟩ : ∃ hd' tl', splitAll p cs = hd' :: tl' := by
        cases hx : splitAll p cs with
        | nil => exact absurd hx (splitAll_ne_nil p cs)
        | cons a b => exact ⟨a, b, rfl⟩
      rw [splitAll_cons_neg hc hsp] at hp
      rcases List.mem_cons.mp hp with rfl | hp'
      · intro hinf
        rcases infix_cons_split hinf with hpre | hinf'
        · obtain ⟨w, hw⟩ := hpre
          obtain ⟨w', hw'⟩ := splitAll_head_pre p cs hd' tl' hsp
          have : p.isPrefixOf (c :: cs) = true := by
            rw [List.isPrefixOf_iff_prefix]
            exact ⟨w ++ w', by rw [← List.append_assoc, hw, List.cons_append, hw']⟩
          exact hc ⟨hne, this⟩
        · exact ih cs (by simp) hd' (hsp ▸ List.mem_cons_self hd' tl') hinf'
      · exact ih cs (by simp) part (hsp ▸ List.mem_cons_of_mem hd' hp')

theorem intercalate_single (r a : List Char) : List.intercalate r [a] = a := by
  simp [List.intercalate]

theorem intercalate_cons_cons (r a b : List Char) (l : List (List Char)) :
    List.intercalate r (a :: b :: l) = a ++ r ++ List.intercalate r (b :: l) := by
  simp [List.intercalate, List.intersperse_cons₂]

theorem replaceAll_eq_inter (p r : List Char) :
    ∀ s : List Char, replaceAll p r s = List.intercalate r (splitAll p s) := by
  apply list_strong_ind
  intro s ih
  cases s with
  | nil => simp [replaceAll, replaceTail, splitAll, splitTail, List.intercalate]
  | cons c cs =>
    by_cases hc : p ≠ [] ∧ p.isPrefixOf (c :: cs) = true
    · rw [replaceAll_cons_pos r hc.1 hc.2, splitAll_cons_pos hc.1 hc.2]
      have hlt : (List.drop p.length (c :: cs)).length < (c :: cs).length := by
        have := List.length_pos.mpr hc.1
        simp
        omega
      rw [ih _ hlt]
      obtain ⟨hd', tl', hsp⟩ : ∃ hd' tl',
          splitAll p (List.drop p.length (c :: cs)) = hd' :: tl' := by
        cases hx : splitAll p (List.drop p.length (c :: cs)) with
        | nil => exact absurd hx (splitAll_ne_nil p _)
        | cons a b => exact ⟨a, b, rfl⟩
      rw [hsp, intercalate_cons_cons]
      simp
    · obtain ⟨hd', tl', hsp⟩ : ∃ hd' tl', splitAll p cs = hd' :: tl' := by
        cases hx : splitAll p cs with
        | nil => exact absurd hx (splitAll_ne_nil p cs)
        | cons a b => exact ⟨a, b, rfl⟩
      rw [replaceAll_cons_neg r hc, splitAll_cons_neg hc hsp, ih cs (by simp), hsp]
      cases tl' with
      | nil => simp [intercalate_single]
      | cons b l => rw [intercalate_cons_cons, intercalate_cons_cons]; simp

theorem intercalate_infix_cases {p r : List Char} (hne : p ≠ []) (hns : NoSpan p r) :
    ∀ parts : List (List Char), p <:+: List.intercalate r parts →
      ∃ part ∈ parts, p <:+: part := by
  intro parts
  induction parts with
  | nil =>
    intro h
    rw [show List.intercalate r [] = [] from rfl] at h
    exact absurd (List.infix_nil.mp h) hne
  | cons a l ih =>
    intro h
    cases l with
    | nil =>
      rw [intercalate_single] at h
      exact ⟨a, List.mem_cons_self a [], h⟩
    | cons b l' =>
      rw [intercalate_cons_cons] at h
      rcases hns a (List.intercalate r (b :: l')) (by simpa using h) with h1 | h1
      · exact ⟨a, List.mem_cons_self a _, h1⟩
      · obtain ⟨part, hm, hp⟩ := ih h1
        exact ⟨part, List.mem_cons_of_mem a hm, hp⟩

theorem pat_ne_nil {p : List Char} (hp : PatGood p) : p ≠ [] :=
  ne_nil_of_head_eq hp.1

/-- After `replaceAll p r s` no occurrence of `p` remains: the pieces between
the replaced occurrences contain none, and `p` cannot straddle an inserted
copy of `r`. -/
theorem not_infix_replaceAll_self {p r : List Char} (hp : PatGood p) (hr : RepGood r)
    (s : List Char) : ¬ p <:+: replaceAll p r s := by
  intro h
  rw [replaceAll_eq_inter] at h
  obtain ⟨part, hm, hinf⟩ :=
    intercalate_infix_cases (pat_ne_nil hp) (noSpan_of_good hp hr) (splitAll p s) h
  exact splitAll_parts_not_contain (pat_ne_nil hp) s part hm hinf

/-- Replacing a (possibly different) pattern `q` with a replacement `r'`
cannot create an occurrence of `p` that was not already present. -/
theorem not_infix_replaceAll_other {p r' : List Char} (hp : PatGood p) (hr' : RepGood r')
    (q s : List Char) (habs : ¬ p <:+: s) : ¬ p <:+: replaceAll q r' s := by
  intro h
  rw [replaceAll_eq_inter] at h
  obtain ⟨part, hm, hinf⟩ :=
    intercalate_infix_cases (pat_ne_nil hp) (noSpan_of_good hp hr') (splitAll q s) h
  exact habs (hinf.trans (splitAll_parts_within q s part hm))

/-- When the pattern occurs in the text, its replacement occurs in the
output. -/
theorem rep_infix_replaceAll {p : List Char} (r : List Char) (hne : p ≠ []) :
    ∀ s : List Char, p <:+: s → r <:+: replaceAll p r s := by
  apply list_strong_ind
  intro s ih
  cases s with
  | nil =>
    intro h
    exact absurd (List.infix_nil.mp h) hne
  | cons c cs =>
    intro h
    by_cases hc : p ≠ [] ∧ p.isPrefixOf (c :: cs) = true
    · rw [replaceAll_cons_pos r hc.1 hc.2]
      exact (List.prefix_append r _).isInfix
    · rw [replaceAll_cons_neg r hc]
      rcases infix_cons_split h with hpre | hinf
      · rw [← List.isPrefixOf_iff_prefix] at hpre
        exact absurd ⟨hne, hpre⟩ hc
      · exact List.infix_cons (ih cs (by simp) hinf)

/-- A block `u` free of the head character of the pattern is copied verbatim
at the front by `replaceAll`. -/
theorem replaceAll_copy_left {q : List Char} (rq : List Char) {c0 : Char}
    (hq : q.head? = some c0) :
    ∀ u rest : List Char, c0 ∉ u →
      replaceAll q rq (u ++ rest) = u ++ replaceAll q rq rest := by
  intro u
  induction u with
  | nil => intro rest _; simp
  | cons a u' ih =>
    intro rest hc0
    have hnp : ¬(q ≠ [] ∧ q.isPrefixOf (a :: (u' ++ rest)) = true) := by
      rintro ⟨hne, hpre⟩
      obtain ⟨ys, rfl⟩ := List.head?_eq_some_iff.mp hq
      rw [List.isPrefixOf_iff_prefix] at hpre
      obtain ⟨w, hw⟩ := hpre
      have : c0 = a := by injection hw
      exact hc0 (this ▸ List.mem_cons_self a u')
    rw [List.cons_append, replaceAll_cons_neg rq hnp,
      ih rest fun hm => hc0 (List.mem_cons_of_mem a hm)]
    rfl

/-- An occurrence of a replacement-shaped string `r` survives the replacement
of a pattern-shaped `q`: no occurrence of `q` can overlap it. -/
theorem rep_survives_replaceAll {q r : List Char} (rq : List Char)
    (hq : PatGood q) (hr : RepGood r) :
    ∀ s : List Char, r <:+: s → r <:+: replaceAll q rq s := by
  apply list_strong_ind
  intro s ih
  cases s with
  | nil =>
    intro h
    rw [List.infix_nil.mp h]
    simp
  | cons c cs =>
    intro h
    by_cases hc : q ≠ [] ∧ q.isPrefixOf (c :: cs) = true
    · rw [replaceAll_cons_pos rq hc.1 hc.2]
      have hdec : c :: cs = q ++ List.drop q.length (c :: cs) := by
        rw [List.isPrefixOf_iff_prefix] at hc
        exact (List.prefix_iff_eq_append.mp hc.2).symm
      rw [hdec] at h
      rcases infix_append_cases h with h1 | h1 | h1
      · exact absurd (h1.subset hr.2) hq.2.2
      · have hlt : (List.drop q.length (c :: cs)).length < (c :: cs).length := by
          have := List.length_pos.mpr hc.1
          simp
          omega
        have h2 := ih _ hlt h1
        exact h2.trans (List.suffix_append rq _).isInfix
      · obtain ⟨s', t', hrst, hs', ht', hsq, _⟩ := h1
        obtain ⟨a, ha⟩ : ∃ a, s'.getLast? = some a := by
          cases hh : s'.getLast? with
          | none => exact absurd (List.getLast?_eq_none_iff.mp hh) hs'
          | some a => exact ⟨a, rfl⟩
        have hqa : q.getLast? = some a := by
          obtain ⟨w, hw⟩ := hsq
          rw [← hw]
          exact getLast_append_right ha
        rw [hq.2.1] at hqa
        obtain rfl : sq = a := by injection hqa
        have : sq ∈ r := by
          rw [hrst]
          exact List.mem_append_left t' (mem_of_getLast_eq ha)
        exact absurd this hr.1
    · rcases infix_cons_split h with hpre | hinf
      · obtain ⟨w, hw⟩ := hpre
        rw [← hw, replaceAll_copy_left rq hq.1 r w hr.1]
        exact (List.prefix_append r _).isInfix
      · rw [replaceAll_cons_neg rq hc]
        exact List.infix_cons (ih cs (by simp) hinf)

theorem all_pairs_good : ∀ pr ∈ ALL_MAPPINGS, PatGood pr.1 ∧ RepGood pr.2 := by
  unfold PatGood RepGood
  decide

theorem apply_mappings_nil (t : List Char) : apply_mappings [] t = t := rfl

theorem apply_mappings_cons (pr : List Char × List Char) (ms : List (List Char × List Char))
    (t : List Char) :
    apply_mappings (pr :: ms) t = apply_mappings ms (replaceAll pr.1 pr.2 t) := rfl

theorem apply_mappings_append (l₁ l₂ : List (List Char × List Char)) (t : List Char) :
    apply_mappings (l₁ ++ l₂) t = apply_mappings l₂ (apply_mappings l₁ t) := by
  simp [apply_mappings, List.foldl_append]

theorem absent_through_apply {p : List Char} (hp : PatGood p) :
    ∀ ms : List (List Char × List Char), (∀ pr ∈ ms, RepGood pr.2) →
      ∀ t : List Char, ¬ p <:+: t → ¬ p <:+: apply_mappings ms t := by
  intro ms
  induction ms with
  | nil => intro _ t h; exact h
  | cons q rest ih =>
    intro hg t h
    rw [apply_mappings_cons]
    exact ih (fun pr hm => hg pr (List.mem_cons_of_mem q hm)) _
      (not_infix_replaceAll_other hp (hg q (List.mem_cons_self q rest)) q.1 t h)

theorem present_through_apply {r : List Char} (hr : RepGood r) :
    ∀ ms : List (List Char × List Char), (∀ pr ∈ ms, PatGood pr.1) →
      ∀ t : List Char, r <:+: t → r <:+: apply_mappings ms t := by
  intro ms
  induction ms with
  | nil => intro _ t h; exact h
  | cons q rest ih =>
    intro hg t h
    rw [apply_mappings_cons]
    exact ih (fun pr hm => hg pr (List.mem_cons_of_mem q hm)) _
      (rep_survives_replaceAll q.2 (hg q (List.mem_cons_self q rest)) hr t h)

theorem apply_mappings_no_pattern :
    ∀ ms : List (List Char × List Char), (∀ pr ∈ ms, PatGood pr.1 ∧ RepGood pr.2) →
      ∀ t : List Char, ∀ pr ∈ ms, ¬ pr.1 <:+: apply_mappings ms t := by
  intro ms
  induction ms with
  | nil => intro _ t pr hm; simp at hm
  | cons q rest ih =>
    intro hg t pr hm
    rcases List.mem_cons.mp hm with rfl | hm'
    · rw [apply_mappings_cons]
      apply absent_through_apply (hg pr (List.mem_cons_self pr rest)).1 rest
        (fun pr' hm'' => (hg pr' (List.mem_cons_of_mem pr hm'')).2)
      exact not_infix_replaceAll_self (hg pr (List.mem_cons_self pr rest)).1
        (hg pr (List.mem_cons_self pr rest)).2 t
    · rw [apply_mappings_cons]
      exact ih (fun pr' hm'' => hg pr' (List.mem_cons_of_mem q hm'')) _ pr hm'

theorem replacement_in_apply (l₁ : List (List Char × List Char))
    (pr : List Char × List Char) (l₂ : List (List Char × List Char))
    (hg : ∀ x ∈ l₁ ++ pr :: l₂, PatGood x.1 ∧ RepGood x.2)
    (t : List Char) (hpres : pr.1 <:+: apply_mappings l₁ t) :
    pr.2 <:+: apply_mappings (l₁ ++ pr :: l₂) t := by
  rw [apply_mappings_append, apply_mappings_cons]
  have hpr := hg pr (by simp)
  exact present_through_apply hpr.2 l₂
    (fun x hm => (hg x (by simp [hm])).1) _
    (rep_infix_replaceAll pr.2 (pat_ne_nil hpr.1) _ hpres)

theorem needs_migration_eq_false_iff (t : List Char) :
    needs_migration t = false ↔ ∀ p ∈ ALL_PATTERNS, ¬ p <:+: t := by
  simp [needs_migration, containsSub_iff]

theorem needs_migration_eq_true_iff (t : List Char) :
    needs_migration t = true ↔ ∃ p ∈ ALL_PATTERNS, p <:+: t := by
  simp [needs_migration, containsSub_iff]

theorem apply_all_no_pattern (t : List Char) :
    ∀ p ∈ ALL_PATTERNS, ¬ p <:+: apply_mappings ALL_MAPPINGS t := by
  intro p hp
  obtain ⟨pr, hm, rfl⟩ := List.mem_map.mp hp
  exact apply_mappings_no_pattern ALL_MAPPINGS all_pairs_good t pr hm

theorem needs_migration_apply_all (t : List Char) :
    needs_migration (apply_mappings ALL_MAPPINGS t) = false := by
  rw [needs_migration_eq_false_iff]
  exact apply_all_no_pattern t

theorem matchLit_suffix {lit s r : List Char} (h : matchLit lit s = some r) : r <:+ s := by
  unfold matchLit at h
  split at h
  · injection h with h'
    rw [← h']
    exact List.drop_suffix _ _
  · exact absurd h (by simp)

theorem matchLit_length_lt {lit s r : List Char} (hne : lit ≠ [])
    (h : matchLit lit s = some r) : r.length < s.length := by
  unfold matchLit at h
  split at h
  · rename_i hpre
    injection h with h'
    rw [List.isPrefixOf_iff_prefix] at hpre
    have hle := hpre.length_le
    have hpos := List.length_pos.mpr hne
    rw [← h']
    simp
    omega
  · exact absurd h (by simp)

theorem expectChar_suffix {ch : Char} {s r : List Char} (h : expectChar ch s = some r) :
    r <:+ s := by
  match s with
  | [] => simp [expectChar] at h
  | c :: cs =>
    simp only [expectChar] at h
    split at h
    · injection h with h'
      rw [← h']
      exact List.suffix_cons c cs
    · exact absurd h (by simp)

theorem skipSpaces_suffix (s : List Char) : skipSpaces s <:+ s := List.dropWhile_suffix _

theorem matchInner_suffix {s r : List Char} (h : matchInner s = some r) : r <:+ s := by
  simp only [matchInner] at h
  split at h
  · exact absurd h (by simp)
  · injection h with h'
    rw [← h']
    exact List.drop_suffix _ _

theorem tryMatchAfter_suffix {s1 r : List Char} (h : tryMatchAfter s1 = some r) :
    r <:+ s1 := by
  simp only [tryMatchAfter, Option.bind_eq_some] at h
  obtain ⟨s2, h2, s3, h3, s4, h4, s5, h5, h6⟩ := h
  have hs2 : s2 <:+ s1 := (expectChar_suffix h2).trans (skipSpaces_suffix s1)
  have hs3 : s3 <:+ s2 := matchInner_suffix h3
  have hs4 : s4 <:+ s3 := expectChar_suffix h4
  have hs5 : s5 <:+ s4 := (matchLit_suffix h5).trans (skipSpaces_suffix s4)
  have hr : r <:+ s5 := (matchLit_suffix h6).trans (skipSpaces_suffix s5)
  exact (((hr.trans hs5).trans hs4).trans hs3).trans hs2

theorem tryMatchImport_some {s r : List Char} (h : tryMatchImport s = some r) :
    r <:+ s ∧ r.length < s.length := by
  simp only [tryMatchImport, Option.bind_eq_some] at h
  obtain ⟨s1, h1, h2⟩ := h
  have hs1 : s1 <:+ s := matchLit_suffix h1
  have hr : r <:+ s1 := tryMatchAfter_suffix h2
  refine ⟨hr.trans hs1, ?_⟩
  have h3 : s1.length < s.length := matchLit_length_lt (by decide) h1
  have h4 : r.length ≤ s1.length := hr.length_le
  omega

theorem reSubTail_skip :
    ∀ (s : List Char) (k : Nat), reSubTail s k = reSubTail (s.drop k) 0 := by
  intro s
  induction s with
  | nil => intro k; simp [reSubTail]
  | cons c cs ih =>
    intro k
    cases k with
    | zero => rfl
    | succ k => simpa [reSubTail] using ih k

theorem reSub_cons_match {c : Char} {cs rest : List Char}
    (h : tryMatchImport (c :: cs) = some rest) :
    reSubImport (c :: cs) = import_statement ++ reSubImport rest := by
  obtain ⟨hsuf, hlt⟩ := tryMatchImport_some h
  obtain ⟨w, hw⟩ := hsuf
  obtain ⟨w', rfl⟩ : ∃ w', w = c :: w' := by
    cases w with
    | nil =>
      simp at hw
      rw [hw] at hlt
      omega
    | cons a w' =>
      have : a = c := by injection hw
      exact ⟨w', by rw [this]⟩
  have hw' : w' ++ rest = cs := by injection hw
  have hrest : cs.drop (cs.length - rest.length) = rest := by
    have hlen : w'.length = cs.length - rest.length := by
      have := congrArg List.length hw'
      simp at this
      omega
    rw [← hlen, ← hw', List.drop_left]
  show reSubTail (c :: cs) 0 = import_statement ++ reSubTail rest 0
  simp only [reSubTail]
  rw [h]
  dsimp only
  rw [reSubTail_skip cs (cs.length - rest.length), hrest]

theorem reSub_cons_none {c : Char} {cs : List Char} (h : tryMatchImport (c :: cs) = none) :
    reSubImport (c :: cs) = c :: reSubImport cs := by
  show reSubTail (c :: cs) 0 = c :: reSubTail cs 0
  simp only [reSubTail]
  rw [h]

theorem reSub_id_of_no_match :
    ∀ s : List Char, hasImportMatch s = false → reSubImport s = s := by
  intro s
  induction s with
  | nil => intro _; rfl
  | cons c cs ih =>
    intro h
    cases hm : tryMatchImport (c :: cs) with
    | some rest =>
      rw [hasImportMatch, hm] at h
      simp at h
    | none =>
      rw [hasImportMatch, hm] at h
      simp at h
      rw [reSub_cons_none hm, ih h]

theorem canonical_infix_of_match :
    ∀ s : List Char, hasImportMatch s = true → import_statement <:+: reSubImport s := by
  intro s
  induction s with
  | nil => intro h; simp [hasImportMatch] at h
  | cons c cs ih =>
    intro h
    cases hm : tryMatchImport (c :: cs) with
    | some rest =>
      rw [reSub_cons_match hm]
      exact (List.prefix_append _ _).isInfix
    | none =>
      rw [reSub_cons_none hm]
      apply List.infix_cons
      apply ih
      rw [hasImportMatch, hm] at h
      simpa using h

theorem insert_found :
    ∀ (l₁ : List (List Char)) (limp : List Char) (l₂ : List (List Char)),
      (∀ x ∈ l₁, is_import_line x = false) → is_import_line limp = true →
      insert_after_first_import (l₁ ++ limp :: l₂) =
        some (l₁ ++ limp :: import_statement :: l₂) := by
  intro l₁
  induction l₁ with
  | nil =>
    intro limp l₂ _ himp
    simp [insert_after_first_import, himp]
  | cons a l ih =>
    intro limp l₂ hall himp
    have ha : is_import_line a = false := hall a (List.mem_cons_self a l)
    have ih' := ih limp l₂ (fun x hm => hall x (List.mem_cons_of_mem a hm)) himp
    show insert_after_first_import (a :: (l ++ limp :: l₂)) = _
    simp only [insert_after_first_import, ha, Bool.false_eq_true, if_false, ih',
      Option.map_some]
    rfl

theorem insert_none :
    ∀ ls : List (List Char), (∀ x ∈ ls, is_import_line x = false) →
      insert_after_first_import ls = none := by
  intro ls
  induction ls with
  | nil => intro _; rfl
  | cons a l ih =>
    intro hall
    simp [insert_after_first_import, hall a (List.mem_cons_self a l),
      ih fun x hm => hall x (List.mem_cons_of_mem a hm)]

theorem run_main_spec :
    ∀ files : List (List Char × FileCase),
      run_main files =
        ((files.filter fun pf => (migrate_file pf.1 pf.2).migrated).length,
         (files.map fun pf => (migrate_file pf.1 pf.2).output).flatten) := by
  have H : ∀ (files : List (List Char × FileCase)) (n : Nat) (out : List OutLine),
      files.foldl
        (fun acc pf =>
          let r := migrate_file pf.1 pf.2
          (acc.1 + (if r.migrated then 1 else 0), acc.2 ++ r.output)) (n, out) =
      (n + (files.filter fun pf => (migrate_file pf.1 pf.2).migrated).length,
       out ++ (files.map fun pf => (migrate_file pf.1 pf.2).output).flatten) := by
    intro files
    induction files with
    | nil => intro n out; simp
    | cons f fs ih =>
      intro n out
      rw [List.foldl_cons, ih]
      cases hm : (migrate_file f.1 f.2).migrated
      · simp [List.filter_cons, hm]
      · simp [List.filter_cons, hm]
        omega
  intro files
  rw [run_main, H files 0 []]
  simp

/-- C1 fails as stated: in this input the mapped literal `'openai'` is
present, but its occurrence overlaps the `'google'` occurrence (the two share
a quote character); the earlier google pass consumes the shared quote, the
openai pass then finds no occurrence, and the replacement symbol
`LlmProviders.OpenAI` is absent from the migrated content. -/
theorem claim1_counterexample :
    needs_migration "const x = 'google'openai';".toList = true ∧
    "'openai'".toList <:+: "const x = 'google'openai';".toList ∧
    ¬ "LlmProviders.OpenAI".toList <:+:
        migrate_content "const x = 'google'openai';".toList := by
  decide

/-- C1 (amended): for content containing a mapped literal, migration leaves
zero occurrences of every mapped literal pattern present in the input; and
every pattern still present at the moment its own substitution pass runs
(that is, after the import-ensuring step and the passes listed before it)
leaves its replacement symbol in the migrated content. -/
theorem claim1_migration_replaces_patterns (c : List Char)
    (h : needs_migration c = true) :
    (∀ pr ∈ ALL_MAPPINGS, pr.1 <:+: c → ¬ pr.1 <:+: migrate_content c) ∧
    (∀ (l₁ : List (List Char × List Char)) (pr : List Char × List Char)
       (l₂ : List (List Char × List Char)), ALL_MAPPINGS = l₁ ++ pr :: l₂ →
       pr.1 <:+: apply_mappings l₁ (add_import_if_needed c) →
       pr.2 <:+: migrate_content c) := by
  have hmc : migrate_content c = apply_mappings ALL_MAPPINGS (add_import_if_needed c) := by
    unfold migrate_content
    rw [if_pos h]
  constructor
  · intro pr hm _
    rw [hmc]
    exact apply_mappings_no_pattern ALL_MAPPINGS all_pairs_good _ pr hm
  · intro l₁ pr l₂ hdec hpres
    rw [hmc, hdec]
    exact replacement_in_apply l₁ pr l₂ (hdec ▸ all_pairs_good) _ hpres

theorem claim1_witness :
    needs_migration "const m = 'gemini-2.5-pro';".toList = true ∧
    ((∀ pr ∈ ALL_MAPPINGS, pr.1 <:+: "const m = 'gemini-2.5-pro';".toList →
        ¬ pr.1 <:+: migrate_content "const m = 'gemini-2.5-pro';".toList) ∧
     (∀ (l₁ : List (List Char × List Char)) (pr : List Char × List Char)
        (l₂ : List (List Char × List Char)), ALL_MAPPINGS = l₁ ++ pr :: l₂ →
        pr.1 <:+: apply_mappings l₁
          (add_import_if_needed "const m = 'gemini-2.5-pro';".toList) →
        pr.2 <:+: migrate_content "const m = 'gemini-2.5-pro';".toList)) :=
  ⟨by decide, claim1_migration_replaces_patterns _ (by decide)⟩

/-- C2: the full per-file transformation is idempotent, because after one
application the result contains no mapped literal at all, so the
`needs_migration` gate makes the second application a no-op. -/
theorem claim2_idempotent (c : List Char) :
    migrate_content (migrate_content c) = migrate_content c := by
  cases hn : needs_migration c with
  | false =>
    have h1 : migrate_content c = c := by
      unfold migrate_content
      rw [if_neg (by simp [hn])]
    rw [h1]
    exact h1
  | true =>
    have h1 : migrate_content c = apply_mappings ALL_MAPPINGS (add_import_if_needed c) := by
      unfold migrate_content
      rw [if_pos hn]
    rw [h1]
    unfold migrate_content
    rw [if_neg (by simp [needs_migration_apply_all])]

/-- C3: `needs_migration` is true exactly when the content contains one of
the literal patterns as a case-sensitive substring, and when it is false the
file is skipped entirely: no output line, no write, not counted. -/
theorem claim3_needs_migration_spec (c : List Char) :
    (needs_migration c = true ↔ ∃ p ∈ ALL_PATTERNS, p <:+: c) ∧
    (needs_migration c = false →
      migrate_content c = c ∧
      ∀ (path : List Char) (w : Bool) (msg : List Char),
        migrate_file path ⟨.ok c, w, msg⟩ = ⟨false, [], none⟩) := by
  refine ⟨needs_migration_eq_true_iff c, fun hn => ⟨?_, ?_⟩⟩
  · unfold migrate_content
    rw [if_neg (by simp [hn])]
  · intro path w msg
    unfold migrate_file
    simp [hn]

theorem claim3_witness :
    needs_migration "const x = 1;".toList = false ∧
    migrate_content "const x = 1;".toList = "const x = 1;".toList ∧
    migrate_file "apps/a.test.ts".toList ⟨.ok "const x = 1;".toList, true, []⟩ =
      ⟨false, [], none⟩ :=
  ⟨by decide, ((claim3_needs_migration_spec _).2 (by decide)).1,
   ((claim3_needs_migration_spec _).2 (by decide)).2 _ true []⟩

/-- C4: when the two symbol names are not both present but the module-path
needle is, and the content has a clause the braced-import regex matches, the
whole import-ensuring step is exactly the regex substitution, and the
rewritten content contains the canonical two-symbol import clause. -/
theorem claim4_rewrite_clause (c : List Char)
    (h1 : (containsSub llmModelsName c && containsSub llmProvidersName c) = false)
    (h2 : containsSub moduleFromNeedle c = true)
    (h3 : hasImportMatch c = true) :
    add_import_if_needed c = reSubImport c
      ∧ import_statement <:+: add_import_if_needed c := by
  have he : add_import_if_needed c = reSubImport c := by
    unfold add_import_if_needed
    rw [if_neg (by simp [h1]), if_pos h2]
  exact ⟨he, he ▸ canonical_infix_of_match c h3⟩

theorem claim4_witness :
    (containsSub llmModelsName exampleRewrite &&
      containsSub llmProvidersName exampleRewrite) = false ∧
    (add_import_if_needed exampleRewrite = reSubImport exampleRewrite
      ∧ import_statement <:+: add_import_if_needed exampleRewrite) :=
  ⟨by decide, claim4_rewrite_clause _ (by decide) (by decide) (by decide)⟩

/-- C5: with no import from the target module and not both symbols present,
the new import line is inserted immediately after the first line that starts
with the import keyword and contains "from", all other lines kept in
order. -/
theorem claim5_insert_line (c : List Char)
    (h1 : (containsSub llmModelsName c && containsSub llmProvidersName c) = false)
    (h2 : containsSub moduleFromNeedle c = false)
    (l₁ : List (List Char)) (limp : List Char) (l₂ : List (List Char))
    (hsplit : splitNL c = l₁ ++ limp :: l₂)
    (hfirst : ∀ x ∈ l₁, is_import_line x = false)
    (himp : is_import_line limp = true) :
    add_import_if_needed c = joinNL (l₁ ++ limp :: import_statement :: l₂) := by
  unfold add_import_if_needed
  rw [if_neg (by simp [h1]), if_neg (by simp [h2]), hsplit,
    insert_found l₁ limp l₂ hfirst himp]

theorem claim5_witness :
    splitNL exampleInsert = [] ++ exampleInsertLine1 :: [exampleInsertLine2] ∧
    add_import_if_needed exampleInsert =
      joinNL ([] ++ exampleInsertLine1 :: import_statement :: [exampleInsertLine2]) :=
  ⟨by decide,
   claim5_insert_line _ (by decide) (by decide) [] _ _ (by decide) (by decide) (by decide)⟩

/-- C6: a file with a mapped literal but no import-looking line at all (and
no module-path needle, not both symbols) gets its literals substituted while
no line is added: the import-ensuring step returns the text unchanged. -/
theorem claim6_no_import_line (c : List Char)
    (h0 : needs_migration c = true)
    (h1 : (containsSub llmModelsName c && containsSub llmProvidersName c) = false)
    (h2 : containsSub moduleFromNeedle c = false)
    (h3 : ∀ x ∈ splitNL c, is_import_line x = false) :
    add_import_if_needed c = c ∧
    migrate_content c = apply_mappings ALL_MAPPINGS c := by
  have he : add_import_if_needed c = c := by
    unfold add_import_if_needed
    rw [if_neg (by simp [h1]), if_neg (by simp [h2]), insert_none _ h3]
  refine ⟨he, ?_⟩
  unfold migrate_content
  rw [if_pos h0, he]

theorem claim6_witness :
    needs_migration "const x = 'google';".toList = true ∧
    (add_import_if_needed "const x = 'google';".toList = "const x = 'google';".toList ∧
     migrate_content "const x = 'google';".toList =
       apply_mappings ALL_MAPPINGS "const x = 'google';".toList) :=
  ⟨by decide, claim6_no_import_line _ (by decide) (by decide) (by decide) (by decide)⟩

/-- C7: when both symbol names occur anywhere in the text — an import clause
or not — the import-ensuring step returns the content unchanged. -/
theorem claim7_both_symbols (c : List Char)
    (h1 : containsSub llmModelsName c = true)
    (h2 : containsSub llmProvidersName c = true) :
    add_import_if_needed c = c := by
  unfold add_import_if_needed
  rw [if_pos (by simp [h1, h2])]

theorem claim7_witness :
    containsSub llmModelsName
      "// mentions LlmModels and LlmProviders only here\nconst p = 'google';".toList = true ∧
    add_import_if_needed
      "// mentions LlmModels and LlmProviders only here\nconst p = 'google';".toList =
      "// mentions LlmModels and LlmProviders only here\nconst p = 'google';".toList :=
  ⟨by decide, claim7_both_symbols _ (by decide) (by decide)⟩

/-- C8: the driver's count is exactly the number of files whose migration
completed successfully, its output is the concatenation of the per-file
outputs (each file's processing depends only on that file, so a failure in
one never stops a later one), and a file whose read raises is reported on the
error stream with its path and error detail and is not counted. -/
theorem claim8_error_isolation (files : List (List Char × FileCase)) :
    (run_main files).1 =
      (files.filter fun pf => (migrate_file pf.1 pf.2).migrated).length ∧
    (run_main files).2 =
      (files.map fun pf => (migrate_file pf.1 pf.2).output).flatten ∧
    ∀ (path e : List Char) (w : Bool) (msg : List Char),
      migrate_file path ⟨.error e, w, msg⟩ = ⟨false, [.errorLine path e], none⟩ := by
  refine ⟨?_, ?_, ?_⟩
  · rw [run_main_spec]
  · rw [run_main_spec]
  · intro path e w msg
    rfl

/-- C9 fails as stated: a file whose content needs migration but whose
write-back raises still prints the "Migrating" progress line (the line is
printed before the write is attempted), yet the file is not migrated. -/
theorem claim9_counterexample :
    (migrate_file "apps/a.test.ts".toList
        ⟨.ok "const p = 'google';".toList, false, "disk full".toList⟩).migrated = false ∧
    OutLine.migrating "apps/a.test.ts".toList ∈
      (migrate_file "apps/a.test.ts".toList
        ⟨.ok "const p = 'google';".toList, false, "disk full".toList⟩).output := by
  decide

/-- C9 (amended): the "Migrating" line is printed exactly when the read
succeeds and the content passes `needs_migration`; every successfully
migrated file prints exactly that one line, but a file whose write then
fails prints it too. -/
theorem claim9_progress_line (path : List Char) (fc : FileCase) :
    (OutLine.migrating path ∈ (migrate_file path fc).output ↔
      ∃ content, fc.readResult = .ok content ∧ needs_migration content = true) ∧
    ((migrate_file path fc).migrated = true →
      (migrate_file path fc).output = [OutLine.migrating path]) := by
  obtain ⟨rr, w, msg⟩ := fc
  cases rr with
  | error e =>
    refine ⟨⟨fun hm => ?_, ?_⟩, fun hm => ?_⟩
    · simp [migrate_file] at hm
    · rintro ⟨content, hc, _⟩
      simp at hc
    · simp [migrate_file] at hm
  | ok content =>
    cases hn : needs_migration content with
    | false =>
      refine ⟨⟨fun hm => ?_, ?_⟩, fun hm => ?_⟩
      · simp [migrate_file, hn] at hm
      · rintro ⟨content', hc, hn'⟩
        obtain rfl : content = content' := by
          injection hc
        rw [hn] at hn'
        cases hn'
      · simp [migrate_file, hn] at hm
    | true =>
      cases w with
      | true =>
        refine ⟨⟨fun _ => ⟨content, rfl, hn⟩, fun _ => ?_⟩, fun _ => ?_⟩
        · simp [migrate_file, hn]
        · simp [migrate_file, hn]
      | false =>
        refine ⟨⟨fun _ => ⟨content, rfl, hn⟩, fun _ => ?_⟩, fun hm => ?_⟩
        · simp [migrate_file, hn]
        · simp [migrate_file, hn] at hm

theorem claim9_witness :
    (OutLine.migrating "apps/b.test.ts".toList ∈
      (migrate_file "apps/b.test.ts".toList
        ⟨.ok "const p = 'google';".toList, true, []⟩).output ↔
      ∃ content,
        (FileCase.mk (.ok "const p = 'google';".toList) true []).readResult = .ok content ∧
        needs_migration content = true) ∧
    ((migrate_file "apps/b.test.ts".toList
        ⟨.ok "const p = 'google';".toList, true, []⟩).migrated = true →
      (migrate_file "apps/b.test.ts".toList
        ⟨.ok "const p = 'google';".toList, true, []⟩).output =
        [OutLine.migrating "apps/b.test.ts".toList]) :=
  claim9_progress_line _ _

/-- C10: the module-path needle can be present while the braced-import regex
matches nothing (a default import, or the path inside a comment or string);
then the rewrite branch is taken but rewrites nothing, the insertion branch
is never reached, and the content is returned unchanged. -/
theorem claim10_no_regex_match (c : List Char)
    (h1 : (containsSub llmModelsName c && containsSub llmProvidersName c) = false)
    (h2 : containsSub moduleFromNeedle c = true)
    (h3 : hasImportMatch c = false) :
    add_import_if_needed c = c := by
  unfold add_import_if_needed
  rw [if_neg (by simp [h1]), if_pos h2, reSub_id_of_no_match c h3]

theorem claim10_witness :
    containsSub moduleFromNeedle exampleDefault = true ∧
    hasImportMatch exampleDefault = false ∧
    add_import_if_needed exampleDefault = exampleDefault :=
  ⟨by decide, by decide, claim10_no_regex_match _ (by decide) (by decide) (by decide)⟩

end Praxos
